import Mathlib

/-!
Verification of the command-line argument pipeline of `src/runtime/cgo/cgo.go`
(package objabi part): the shell-style tokenizer `buildargv`, the response-file
expansion loop of `Flagparse`, the `count` flag adapter, and `versionFlag.Set`.

Go strings and byte buffers are modelled as `List Nat` (one entry per byte).
`buildargv` appends bytes one at a time via `string(data[di])`; for the
byte-level properties claimed here an argument is its list of bytes.
-/

/-- Whitespace test of `buildargv` (`ISSPACE` closure in the source): space,
tab, newline, vertical tab, form feed, carriage return. -/
def ISSPACE (ch : Nat) : Bool :=
  ch == 32 || ch == 9 || ch == 10 || ch == 11 || ch == 12 || ch == 13

/-- The `consume_whitespace` closure of `buildargv`: skip bytes satisfying
`ISSPACE` and return the remaining suffix (the source returns the index of the
first non-whitespace byte; we return the suffix starting there). -/
def consume_whitespace : List Nat → List Nat
  | [] => []
  | c :: rest => if ISSPACE c then consume_whitespace rest else c :: rest

/-- Result of scanning one argument in `buildargv`: the accumulated argument,
the unconsumed suffix of the buffer, and the three parser-state flags. -/
structure ScanResult where
  arg : List Nat
  rest : List Nat
  squote : Bool
  dquote : Bool
  bsquote : Bool
deriving Repr, DecidableEq

/-- The inner argument-scanning loop of `buildargv` (`for di < len(data)` with
the break on unquoted unescaped whitespace).  Byte codes: 92 is backslash,
39 is single quote, 34 is double quote. -/
def scanArg : List Nat → Bool → Bool → Bool → List Nat → ScanResult
  | [], squote, dquote, bsquote, arg => ⟨arg, [], squote, dquote, bsquote⟩
  | c :: rest, squote, dquote, bsquote, arg =>
    if ISSPACE c && !squote && !dquote && !bsquote then
      ⟨arg, c :: rest, squote, dquote, bsquote⟩
    else if bsquote then
      scanArg rest squote dquote false (arg ++ [c])
    else if c == 92 then
      scanArg rest squote dquote true arg
    else if squote then
      if c == 39 then scanArg rest false dquote bsquote arg
      else scanArg rest squote dquote bsquote (arg ++ [c])
    else if dquote then
      if c == 34 then scanArg rest squote false bsquote arg
      else scanArg rest squote dquote bsquote (arg ++ [c])
    else
      if c == 39 then scanArg rest true dquote bsquote arg
      else if c == 34 then scanArg rest squote true bsquote arg
      else scanArg rest squote dquote bsquote (arg ++ [c])

/-- The outer argument loop of `buildargv`, with a fuel parameter to make the
recursion structural.  One unit of fuel is spent per produced argument; since
each argument scan starts at a non-whitespace byte and hence consumes at least
one byte, `data.length + 1` fuel always suffices (`argloopF_fuel` below). -/
def argloopF : Nat → List Nat → Bool → Bool → Bool → List (List Nat)
  | 0, _, _, _, _ => []
  | _ + 1, [], _, _, _ => []
  | n + 1, c :: cs, squote, dquote, bsquote =>
    let r := scanArg (c :: cs) squote dquote bsquote []
    r.arg :: argloopF n (consume_whitespace r.rest) r.squote r.dquote r.bsquote

/-- The tokenizer `buildargv` of the source: skip initial whitespace, then
repeatedly scan an argument and skip the following whitespace. -/
def buildargv (data : List Nat) : List (List Nat) :=
  argloopF (data.length + 1) (consume_whitespace data) false false false

-- ----------------------------------------------------------------------
-- Spec-side definition for claim C1: the maximal runs of non-whitespace
-- bytes of a buffer, in buffer order ("whitespace-split words").
-- ----------------------------------------------------------------------

/-- Modelled from the spec: accumulator-style computation of the maximal runs
of non-`ISSPACE` bytes of a buffer, in order; `none` means "between words",
`some w` means "inside a word with accumulated bytes `w`". -/
def wordsAux : List Nat → Option (List Nat) → List (List Nat)
  | [], none => []
  | [], some w => [w]
  | c :: cs, none =>
    if ISSPACE c then wordsAux cs none else wordsAux cs (some [c])
  | c :: cs, some w =>
    if ISSPACE c then w :: wordsAux cs none else wordsAux cs (some (w ++ [c]))

/-- Modelled from the spec: the whitespace-split words of a buffer. -/
def words (data : List Nat) : List (List Nat) :=
  wordsAux data none

/-- Longest non-whitespace run at the head of a buffer. -/
def word_take : List Nat → List Nat
  | [] => []
  | c :: rest => if ISSPACE c then [] else c :: word_take rest

/-- Suffix of a buffer starting at its first whitespace byte. -/
def word_drop : List Nat → List Nat
  | [] => []
  | c :: rest => if ISSPACE c then c :: rest else word_drop rest

-- ----------------------------------------------------------------------
-- The response-file expansion loop of Flagparse.
--
-- File-system effects are modelled by a function from paths to open
-- outcomes.  In the source, when os.Open fails for a reason other than
-- not-exist the error is not checked: the nil file handle flows into
-- ioutil.ReadAll, whose Read returns the invalid-argument error, so control
-- reaches the read-failure log.Fatalf with that error.  The model encodes
-- this as a read failure with error `errInvalid`.
-- ----------------------------------------------------------------------

/-- Possible outcomes of `os.Open` on a response-file path, together with the
subsequent read/close behaviour of the opened file. -/
inductive OpenOutcome where
  | notExist : OpenOutcome
  | openOther (e : List Nat) : OpenOutcome
  | opened (contents : List Nat) (readErr : Option (List Nat))
      (closeErr : Option (List Nat)) : OpenOutcome
deriving Repr, DecidableEq

/-- A fatal termination (`log.Fatalf`) of the expansion loop, recording which
message was produced: failing to read or failing to close the response file
at `path`, with the underlying error text. -/
inductive Fatality where
  | readFail (path : List Nat) (err : List Nat) : Fatality
  | closeFail (path : List Nat) (err : List Nat) : Fatality
deriving Repr, DecidableEq

/-- Result of the expansion loop: either a fatal termination, or the expanded
argument list together with the list of logged diagnostics (paths of response
files that did not exist, logged via `log.Printf`). -/
inductive ExpandResult where
  | fatal (f : Fatality) : ExpandResult
  | ok (args : List (List Nat)) (logs : List (List Nat)) : ExpandResult
deriving Repr, DecidableEq

/-- Byte string "invalid argument": the error returned by reading the nil
file handle left behind by a failed `os.Open`. -/
def errInvalid : List Nat :=
  [105, 110, 118, 97, 108, 105, 100, 32, 97, 114, 103, 117, 109, 101, 110, 116]

/-- The test `strings.HasPrefix(arg, "@")`: 64 is the at-sign byte. -/
def startsWithAt : List Nat → Bool
  | [] => false
  | c :: _ => c == 64

/-- Prepend a pass-through argument to an expansion result. -/
def consArg (a : List Nat) : ExpandResult → ExpandResult
  | .fatal f => .fatal f
  | .ok args logs => .ok (a :: args) logs

/-- Record a logged diagnostic for a missing response file. -/
def consLog (p : List Nat) : ExpandResult → ExpandResult
  | .fatal f => .fatal f
  | .ok args logs => .ok args (p :: logs)

/-- Prepend a block of spliced-in arguments to an expansion result. -/
def consSpliced (as : List (List Nat)) : ExpandResult → ExpandResult
  | .fatal f => .fatal f
  | .ok args logs => .ok (as ++ args) logs

/-- The expansion loop of `Flagparse` over the argument list (`os.Args`),
parameterised by the file system `fs`.  An argument that does not start with
the at-sign (or is empty) passes through; otherwise the rest of the argument
names a response file: not-exist is logged and the literal token kept; a read
failure (including any open failure other than not-exist, see above) or a
close failure is fatal; on success the `buildargv` tokens of the whole file
contents are appended in place of the token.  Spliced tokens are not
re-scanned. -/
def expandArgs (fs : List Nat → OpenOutcome) : List (List Nat) → ExpandResult
  | [] => .ok [] []
  | arg :: rest =>
    if !startsWithAt arg || arg.length < 1 then
      consArg arg (expandArgs fs rest)
    else
      match fs (arg.drop 1) with
      | .notExist => consLog (arg.drop 1) (consArg arg (expandArgs fs rest))
      | .openOther _ => .fatal (.readFail (arg.drop 1) errInvalid)
      | .opened _ (some e) _ => .fatal (.readFail (arg.drop 1) e)
      | .opened contents none closeErr =>
        match closeErr with
        | some e => .fatal (.closeFail (arg.drop 1) e)
        | none => consSpliced (buildargv contents) (expandArgs fs rest)

/-- Byte string "prog". -/
def strProg : List Nat := [112, 114, 111, 103]

/-- Byte string "resp". -/
def strResp : List Nat := [114, 101, 115, 112]

/-- Byte string "-x -y=1". -/
def strRespContents : List Nat := [45, 120, 32, 45, 121, 61, 49]

/-- Byte string "-x". -/
def strDashX : List Nat := [45, 120]

/-- Byte string "-y=1". -/
def strDashY : List Nat := [45, 121, 61, 49]

/-- Byte string "inner". -/
def strInner : List Nat := [105, 110, 110, 101, 114]

/-- Byte string "-z". -/
def strDashZ : List Nat := [45, 122]

/-- Example file system for C3: file resp holds the bytes of "-x -y=1". -/
def fsResp : List Nat → OpenOutcome := fun p =>
  if p = strResp then .opened strRespContents none none else .notExist

/-- Example file system for C3 single-level check: file resp holds the single
token at-inner, and file inner holds "-z"; the expansion of at-resp must keep
the literal at-inner token rather than expand it further. -/
def fsNested : List Nat → OpenOutcome := fun p =>
  if p = strResp then .opened (64 :: strInner) none none
  else if p = strInner then .opened strDashZ none none
  else .notExist

-- ----------------------------------------------------------------------
-- The count flag adapter.
-- ----------------------------------------------------------------------

/-- Byte string "true". -/
def strTrue : List Nat := [116, 114, 117, 101]

/-- Byte string "false". -/
def strFalse : List Nat := [102, 97, 108, 115, 101]

/-- Accumulate base-10 digit bytes (48..57); any other byte fails. -/
def digitsValAux (acc : Nat) : List Nat → Option Nat
  | [] => some acc
  | c :: rest =>
    if 48 ≤ c ∧ c ≤ 57 then digitsValAux (acc * 10 + (c - 48)) rest
    else none

/-- Model of `strconv.Atoi` (ParseInt, base 10, 64-bit int): an optional
leading sign byte (45 minus, 43 plus) followed by at least one digit byte and
nothing else, with the signed value within the 64-bit integer range; `none`
models a non-nil error (syntax or range). -/
def atoi (s : List Nat) : Option Int :=
  match s with
  | [] => none
  | c :: rest =>
    let neg := c == 45
    let digits := if c == 45 || c == 43 then rest else c :: rest
    match digits with
    | [] => none
    | _ :: _ =>
      match digitsValAux 0 digits with
      | none => none
      | some n =>
        let v : Int := if neg then -(n : Int) else (n : Int)
        if -(2 ^ 63) ≤ v ∧ v ≤ 2 ^ 63 - 1 then some v else none

/-- Two's-complement wraparound into the signed 64-bit range
[-2^63, 2^63): the arithmetic of Go's `int` cell behind the `count` type. -/
def wrap64 (v : Int) : Int :=
  (v + 2 ^ 63) % 2 ^ 64 - 2 ^ 63

/-- Byte string "9223372036854775807" (the maximum 64-bit count, accepted by
`atoi`, so the wrap boundary is a reachable cell state). -/
def strMaxInt : List Nat :=
  [57, 50, 50, 51, 51, 55, 50, 48, 51, 54, 56, 53, 52, 55, 55, 53, 56,
   48, 55]

/-- The `(*count).Set` method: the result pairs the cell value after the call
with the returned error (`fmt.Errorf("invalid count %q", s)`, modelled as the
offending input).  The cell is a Go `int`, so `*c++` wraps at the 64-bit
boundary (`wrap64`); the value assigned from `atoi` is already within the
64-bit range, and on a parse error the method returns before assigning, so
the cell keeps its prior value. -/
def countSet (c : Int) (s : List Nat) : Int × Option (List Nat) :=
  if s = strTrue then (wrap64 (c + 1), none)
  else if s = strFalse then (0, none)
  else
    match atoi s with
    | none => (c, some s)
    | some n => (n, none)

-- ----------------------------------------------------------------------
-- The version flag (versionFlag.Set).
-- ----------------------------------------------------------------------

/-- Byte string ".exe". -/
def strExe : List Nat := [46, 101, 120, 101]

/-- Byte string "full". -/
def strFull : List Nat := [102, 117, 108, 108]

/-- Byte string "devel". -/
def strDevel : List Nat := [100, 101, 118, 101, 108]

/-- Byte string " version " (between name and version in the Printf). -/
def strVersionOf : List Nat := [32, 118, 101, 114, 115, 105, 111, 110, 32]

/-- Byte string " buildID=". -/
def strBuildEq : List Nat := [32, 98, 117, 105, 108, 100, 73, 68, 61]

/-- Byte string "/usr/local/bin/tool.exe". -/
def strToolPath : List Nat :=
  [47, 117, 115, 114, 47, 108, 111, 99, 97, 108, 47, 98, 105, 110, 47,
   116, 111, 111, 108, 46, 101, 120, 101]

/-- Byte string "tool". -/
def strTool : List Nat := [116, 111, 111, 108]

/-- The suffix of `s` after the last occurrence of the byte `sep`, or all of
`s` when `sep` does not occur (this is `s[strings.LastIndex(s, sep)+1:]`). -/
def afterLastByte (sep : Nat) (s : List Nat) : List Nat :=
  (s.reverse.takeWhile (fun c => c != sep)).reverse

/-- `strings.TrimSuffix`: drop the suffix when the string ends with it. -/
def trimSuffix (suf s : List Nat) : List Nat :=
  if suf.isSuffixOf s then s.take (s.length - suf.length) else s

/-- The name computation of `versionFlag.Set`: suffix after the last forward
slash (47), then after the last backslash (92), then without a trailing
".exe". -/
def progBaseName (progPath : List Nat) : List Nat :=
  trimSuffix strExe (afterLastByte 92 (afterLastByte 47 progPath))

/-- The line printed by `versionFlag.Set` (the process then exits with
status 0): program base name, " version ", the release version string, then
the experiment string `expStr` unless it equals `defaultExp` (with a space
separator computed before the build-identifier append), and the buildID
suffix exactly when the requested value is "full" and the version starts
with "devel"; 10 is the trailing newline of the Printf format. -/
def versionSet (progPath ver bid expStr defaultExp value : List Nat) :
    List Nat :=
  let name := progBaseName progPath
  let p0 := if expStr = defaultExp then [] else expStr
  let sep := if p0 ≠ [] then [32] else ([] : List Nat)
  let p := if value = strFull ∧ strDevel.isPrefixOf ver then
    p0 ++ strBuildEq ++ bid else p0
  name ++ strVersionOf ++ ver ++ sep ++ p ++ [10]

-- ----------------------------------------------------------------------
-- Basic lemmas about whitespace skipping and word splitting.
-- ----------------------------------------------------------------------

theorem consume_whitespace_nonspace {c : Nat} (cs : List Nat)
    (h : ISSPACE c = false) : consume_whitespace (c :: cs) = c :: cs := by
  simp [consume_whitespace, h]

theorem consume_whitespace_head {data : List Nat} {c : Nat} {cs : List Nat}
    (h : consume_whitespace data = c :: cs) : ISSPACE c = false := by
  induction data with
  | nil => simp [consume_whitespace] at h
  | cons a rest ih =>
    by_cases ha : ISSPACE a
    · exact ih (by simpa [consume_whitespace, ha] using h)
    · simp [consume_whitespace, ha] at h
      rcases h with ⟨h1, _⟩
      subst h1
      simpa using ha

theorem consume_whitespace_mem {data : List Nat} {c : Nat}
    (h : c ∈ consume_whitespace data) : c ∈ data := by
  induction data with
  | nil => simp [consume_whitespace] at h
  | cons a rest ih =>
    by_cases ha : ISSPACE a
    · simp only [consume_whitespace, ha, if_true] at h
      exact List.mem_cons_of_mem a (ih h)
    · simpa [consume_whitespace, ha] using h

theorem consume_whitespace_length (data : List Nat) :
    (consume_whitespace data).length ≤ data.length := by
  induction data with
  | nil => simp [consume_whitespace]
  | cons a rest ih =>
    by_cases ha : ISSPACE a
    · simp only [consume_whitespace, ha, if_true]
      exact Nat.le_succ_of_le ih
    · simp [consume_whitespace, ha]

theorem consume_whitespace_all_space {data : List Nat}
    (h : ∀ c ∈ data, ISSPACE c = true) : consume_whitespace data = [] := by
  induction data with
  | nil => rfl
  | cons a rest ih =>
    have ha := h a (List.mem_cons_self a rest)
    simp only [consume_whitespace, ha, if_true]
    exact ih fun c hc => h c (List.mem_cons_of_mem a hc)

theorem word_drop_length (l : List Nat) : (word_drop l).length ≤ l.length := by
  induction l with
  | nil => simp [word_drop]
  | cons a rest ih =>
    by_cases ha : ISSPACE a
    · simp [word_drop, ha]
    · simp only [word_drop, ha, if_false]
      exact Nat.le_succ_of_le ih

theorem word_drop_mem {l : List Nat} {c : Nat}
    (h : c ∈ word_drop l) : c ∈ l := by
  induction l with
  | nil => simp [word_drop] at h
  | cons a rest ih =>
    by_cases ha : ISSPACE a
    · simp only [word_drop, ha, if_true] at h
      exact h
    · simp only [word_drop, ha, if_false] at h
      exact List.mem_cons_of_mem a (ih h)

-- ----------------------------------------------------------------------
-- Behaviour of the scanner on buffers free of quotes and backslashes.
-- ----------------------------------------------------------------------

theorem scanArg_clean (data : List Nat)
    (h : ∀ c ∈ data, c ≠ 39 ∧ c ≠ 34 ∧ c ≠ 92) :
    ∀ arg, scanArg data false false false arg =
      ⟨arg ++ word_take data, word_drop data, false, false, false⟩ := by
  induction data with
  | nil => intro arg; simp [scanArg, word_take, word_drop]
  | cons c cs ih =>
    intro arg
    obtain ⟨h39, h34, h92⟩ := h c (List.mem_cons_self c cs)
    have hcs : ∀ x ∈ cs, x ≠ 39 ∧ x ≠ 34 ∧ x ≠ 92 :=
      fun x hx => h x (List.mem_cons_of_mem c hx)
    by_cases hsp : ISSPACE c
    · simp [scanArg, word_take, word_drop, hsp]
    · have hsp2 : ISSPACE c = false := by simpa using hsp
      have e92 : (c == 92) = false := by simp [h92]
      have e39 : (c == 39) = false := by simp [h39]
      have e34 : (c == 34) = false := by simp [h34]
      simp only [scanArg, hsp2, e92, e39, e34, Bool.false_and,
        Bool.false_eq_true, if_false]
      rw [ih hcs (arg ++ [c])]
      simp [word_take, word_drop, hsp2]

theorem wordsAux_consume (data : List Nat) :
    wordsAux (consume_whitespace data) none = wordsAux data none := by
  induction data with
  | nil => rfl
  | cons a rest ih =>
    by_cases ha : ISSPACE a
    · simp only [consume_whitespace, ha, if_true, ih, wordsAux]
    · simp [consume_whitespace, ha]

theorem wordsAux_some (l : List Nat) :
    ∀ w, wordsAux l (some w) =
      (w ++ word_take l) :: wordsAux (word_drop l) none := by
  induction l with
  | nil => intro w; simp [wordsAux, word_take, word_drop]
  | cons c cs ih =>
    intro w
    by_cases hc : ISSPACE c
    · simp [wordsAux, word_take, word_drop, hc]
    · simp only [wordsAux, hc, if_false, Bool.false_eq_true, word_take,
        word_drop, ih (w ++ [c])]
      simp

theorem argloopF_clean :
    ∀ (n : Nat) (data : List Nat), data.length < n →
      (∀ c ∈ data, c ≠ 39 ∧ c ≠ 34 ∧ c ≠ 92) →
      (∀ c cs, data = c :: cs → ISSPACE c = false) →
      argloopF n data false false false = wordsAux data none := by
  intro n
  induction n with
  | zero => intro data hlen _ _; omega
  | succ n ih =>
    intro data hlen hclean hhead
    match data with
    | [] => rfl
    | c :: cs =>
      have hc : ISSPACE c = false := hhead c cs rfl
      have hcs : ∀ x ∈ cs, x ≠ 39 ∧ x ≠ 34 ∧ x ≠ 92 :=
        fun x hx => hclean x (List.mem_cons_of_mem c hx)
      simp only [argloopF]
      rw [scanArg_clean (c :: cs) hclean []]
      have hrec : argloopF n (consume_whitespace (word_drop (c :: cs)))
          false false false =
          wordsAux (consume_whitespace (word_drop (c :: cs))) none := by
        apply ih
        · have h1 := consume_whitespace_length (word_drop (c :: cs))
          have h2 := word_drop_length (c :: cs)
          have h3 : (word_drop (c :: cs)).length ≤ cs.length := by
            simpa [word_drop, hc] using word_drop_length cs
          have := Nat.le_trans h1 h3
          simp only [List.length_cons] at hlen
          omega
        · intro x hx
          exact hclean x (word_drop_mem (consume_whitespace_mem hx))
        · intro x xs hx
          exact consume_whitespace_head hx
      simp only [hrec, wordsAux_consume]
      have hdrop : word_drop (c :: cs) = word_drop cs := by
        simp [word_drop, hc]
      have htake : word_take (c :: cs) = c :: word_take cs := by
        simp [word_take, hc]
      rw [hdrop, htake]
      have hrhs : wordsAux (c :: cs) none = wordsAux cs (some [c]) := by
        simp [wordsAux, hc]
      rw [hrhs, wordsAux_some cs [c]]
      simp

theorem buildargv_words_clean (data : List Nat)
    (h : ∀ c ∈ data, c ≠ 39 ∧ c ≠ 34 ∧ c ≠ 92) :
    buildargv data = words data := by
  unfold buildargv words
  rw [argloopF_clean (data.length + 1) (consume_whitespace data)
    (Nat.lt_succ_of_le (consume_whitespace_length data))
    (fun c hc => h c (consume_whitespace_mem hc))
    (fun c cs hc => consume_whitespace_head hc)]
  exact wordsAux_consume data

/-- C1: for every byte buffer containing no single-quote (39), double-quote
(34) or backslash (92) bytes, `buildargv` returns exactly the maximal runs of
non-whitespace bytes of the buffer, in buffer order (`words`); in particular
an empty or all-whitespace buffer yields the empty sequence. -/
theorem buildargv_splits_words (data : List Nat)
    (h : ∀ c ∈ data, c ≠ 39 ∧ c ≠ 34 ∧ c ≠ 92) :
    buildargv data = words data ∧
      ((∀ c ∈ data, ISSPACE c = true) → buildargv data = []) := by
  refine ⟨buildargv_words_clean data h, fun hall => ?_⟩
  unfold buildargv
  rw [consume_whitespace_all_space hall]
  rfl

/-- Witness for C1 at the buffer "ab c" (bytes 97 98 32 99). -/
theorem buildargv_splits_words_witness :
    (∀ c ∈ [97, 98, 32, 99], c ≠ 39 ∧ c ≠ 34 ∧ c ≠ 92) ∧
      (buildargv [97, 98, 32, 99] = words [97, 98, 32, 99] ∧
        ((∀ c ∈ [97, 98, 32, 99], ISSPACE c = true) →
          buildargv [97, 98, 32, 99] = [])) :=
  ⟨by decide, buildargv_splits_words [97, 98, 32, 99] (by decide)⟩

-- ----------------------------------------------------------------------
-- Claim C4: backslash escape handling.
-- ----------------------------------------------------------------------

/-- C4: a backslash byte (92) that is not itself escaped is never appended to
the output: it only sets the one-shot escape state; when the escape state is
set, the immediately following byte, whatever it is and in every quote mode,
is appended literally and the state clears; tokenizing the bytes of
a backslash space b yields the single argument a space b. -/
theorem buildargv_backslash_escape :
    (∀ (rest : List Nat) (s d : Bool) (arg : List Nat),
        scanArg (92 :: rest) s d false arg = scanArg rest s d true arg) ∧
    (∀ (c : Nat) (rest : List Nat) (s d : Bool) (arg : List Nat),
        scanArg (c :: rest) s d true arg =
          scanArg rest s d false (arg ++ [c])) ∧
    buildargv [97, 92, 32, 98] = [[97, 32, 98]] := by
  refine ⟨?_, ?_, by decide⟩
  · intro rest s d arg
    simp [scanArg, ISSPACE]
  · intro c rest s d arg
    simp [scanArg]

-- ----------------------------------------------------------------------
-- Claim C5: quote handling.
-- ----------------------------------------------------------------------

/-- C5: an unescaped single quote (39) met outside double-quote mode toggles
single-quote mode and is consumed without being appended, symmetrically for
double quotes (34); while a quote mode is active, whitespace bytes are
appended as literal content; tokenizing the buffer a space quote b space c
quote space d yields the three arguments a, b-space-c, d. -/
theorem buildargv_quote_handling :
    (∀ (rest arg : List Nat),
        scanArg (39 :: rest) false false false arg =
          scanArg rest true false false arg) ∧
    (∀ (rest arg : List Nat),
        scanArg (39 :: rest) true false false arg =
          scanArg rest false false false arg) ∧
    (∀ (rest arg : List Nat),
        scanArg (34 :: rest) false false false arg =
          scanArg rest false true false arg) ∧
    (∀ (rest arg : List Nat),
        scanArg (34 :: rest) false true false arg =
          scanArg rest false false false arg) ∧
    (∀ (c : Nat) (rest arg : List Nat), ISSPACE c = true →
        scanArg (c :: rest) true false false arg =
          scanArg rest true false false (arg ++ [c])) ∧
    (∀ (c : Nat) (rest arg : List Nat), ISSPACE c = true →
        scanArg (c :: rest) false true false arg =
          scanArg rest false true false (arg ++ [c])) ∧
    buildargv [97, 32, 39, 98, 32, 99, 39, 32, 100] =
      [[97], [98, 32, 99], [100]] := by
  refine ⟨?_, ?_, ?_, ?_, ?_, ?_, by decide⟩
  · intro rest arg; simp [scanArg, ISSPACE]
  · intro rest arg; simp [scanArg, ISSPACE]
  · intro rest arg; simp [scanArg, ISSPACE]
  · intro rest arg; simp [scanArg, ISSPACE]
  · intro c rest arg h
    have hc : ((((c = 32 ∨ c = 9) ∨ c = 10) ∨ c = 11) ∨ c = 12) ∨ c = 13 := by
      simpa [ISSPACE] using h
    rcases hc with ((((rfl | rfl) | rfl) | rfl) | rfl) | rfl <;> simp [scanArg]
  · intro c rest arg h
    have hc : ((((c = 32 ∨ c = 9) ∨ c = 10) ∨ c = 11) ∨ c = 12) ∨ c = 13 := by
      simpa [ISSPACE] using h
    rcases hc with ((((rfl | rfl) | rfl) | rfl) | rfl) | rfl <;> simp [scanArg]

/-- Witness for C5: an escaped-mode space is appended inside single quotes. -/
theorem buildargv_quote_handling_witness :
    ISSPACE 32 = true ∧
      scanArg [32] true false false [] =
        scanArg [] true false false ([] ++ [32]) :=
  ⟨by decide, buildargv_quote_handling.2.2.2.2.1 32 [] [] (by decide)⟩

-- ----------------------------------------------------------------------
-- Claim C8: tolerance of unterminated quotes and trailing backslashes.
-- ----------------------------------------------------------------------

theorem argloopF_nil (k : Nat) (s d b : Bool) : argloopF k [] s d b = [] := by
  cases k <;> rfl

theorem scanArg_plain_word (w : List Nat)
    (h : ∀ c ∈ w, ISSPACE c = false ∧ c ≠ 39 ∧ c ≠ 34 ∧ c ≠ 92) :
    ∀ (rest arg : List Nat),
      scanArg (w ++ rest) false false false arg =
        scanArg rest false false false (arg ++ w) := by
  induction w with
  | nil => intro rest arg; simp
  | cons c cs ih =>
    intro rest arg
    obtain ⟨hsp, h39, h34, h92⟩ := h c (List.mem_cons_self c cs)
    have e92 : (c == 92) = false := by simp [h92]
    have e39 : (c == 39) = false := by simp [h39]
    have e34 : (c == 34) = false := by simp [h34]
    simp only [List.cons_append, scanArg, hsp, e92, e39, e34, Bool.false_and,
      Bool.false_eq_true, if_false]
    rw [List.append_eq, ih (fun x hx => h x (List.mem_cons_of_mem c hx)) rest
      (arg ++ [c])]
    simp

theorem scanArg_squote_swallow (w : List Nat)
    (h : ∀ c ∈ w, c ≠ 39 ∧ c ≠ 92) :
    ∀ arg, scanArg w true false false arg =
      ⟨arg ++ w, [], true, false, false⟩ := by
  induction w with
  | nil => intro arg; simp [scanArg]
  | cons c cs ih =>
    intro arg
    obtain ⟨h39, h92⟩ := h c (List.mem_cons_self c cs)
    have e92 : (c == 92) = false := by simp [h92]
    have e39 : (c == 39) = false := by simp [h39]
    simp only [scanArg, e92, e39, Bool.not_true, Bool.and_false,
      Bool.false_and, Bool.false_eq_true, if_false]
    rw [ih (fun x hx => h x (List.mem_cons_of_mem c hx)) (arg ++ [c])]
    simp

theorem scanArg_dquote_swallow (w : List Nat)
    (h : ∀ c ∈ w, c ≠ 34 ∧ c ≠ 92) :
    ∀ arg, scanArg w false true false arg =
      ⟨arg ++ w, [], false, true, false⟩ := by
  induction w with
  | nil => intro arg; simp [scanArg]
  | cons c cs ih =>
    intro arg
    obtain ⟨h34, h92⟩ := h c (List.mem_cons_self c cs)
    have e92 : (c == 92) = false := by simp [h92]
    have e34 : (c == 34) = false := by simp [h34]
    simp only [scanArg, e92, e34, Bool.not_true, Bool.and_false,
      Bool.not_false, Bool.and_true, Bool.false_and, Bool.false_eq_true,
      if_false]
    rw [ih (fun x hx => h x (List.mem_cons_of_mem c hx)) (arg ++ [c])]
    simp

theorem buildargv_single_scan (a : Nat) (cs : List Nat)
    (ha : ISSPACE a = false) (w : List Nat) (s d b : Bool)
    (hscan : scanArg (a :: cs) false false false [] = ⟨w, [], s, d, b⟩) :
    buildargv (a :: cs) = [w] := by
  unfold buildargv
  rw [consume_whitespace_nonspace cs ha]
  simp only [argloopF, hscan, consume_whitespace, argloopF_nil]

/-- C8: `buildargv` never fails on malformed input: at end of buffer the
partially accumulated argument is emitted as-is (first conjunct: the scanner
simply returns its accumulator, in whatever quote or escape state it is in,
and the outer loop appends it unconditionally), so a buffer ending in an
unterminated single quote (39) or double quote (34) or a trailing backslash
(92) still yields the partial final argument, with no error result. -/
theorem buildargv_tolerates_malformed (w : List Nat) (hw : w ≠ [])
    (h : ∀ c ∈ w, ISSPACE c = false ∧ c ≠ 39 ∧ c ≠ 34 ∧ c ≠ 92) :
    (∀ (s d b : Bool) (arg : List Nat),
        scanArg [] s d b arg = ⟨arg, [], s, d, b⟩) ∧
    buildargv (w ++ [39]) = [w] ∧
    buildargv (w ++ [34]) = [w] ∧
    buildargv (w ++ [92]) = [w] ∧
    buildargv (39 :: w) = [w] ∧
    buildargv (34 :: w) = [w] ∧
    buildargv [92] = [[]] := by
  obtain ⟨a, w1, rfl⟩ := List.exists_cons_of_ne_nil hw
  have ha : ISSPACE a = false := (h a (List.mem_cons_self a w1)).1
  refine ⟨fun s d b arg => rfl, ?_, ?_, ?_, ?_, ?_, by decide⟩
  · rw [List.cons_append]
    apply buildargv_single_scan a (w1 ++ [39]) ha (a :: w1) true false false
    rw [← List.cons_append, scanArg_plain_word (a :: w1) h [39] []]
    simp [scanArg, ISSPACE]
  · rw [List.cons_append]
    apply buildargv_single_scan a (w1 ++ [34]) ha (a :: w1) false true false
    rw [← List.cons_append, scanArg_plain_word (a :: w1) h [34] []]
    simp [scanArg, ISSPACE]
  · rw [List.cons_append]
    apply buildargv_single_scan a (w1 ++ [92]) ha (a :: w1) false false true
    rw [← List.cons_append, scanArg_plain_word (a :: w1) h [92] []]
    simp [scanArg, ISSPACE]
  · apply buildargv_single_scan 39 (a :: w1) (by decide) (a :: w1)
      true false false
    have h2 : ∀ c ∈ a :: w1, c ≠ 39 ∧ c ≠ 92 :=
      fun c hc => ⟨(h c hc).2.1, (h c hc).2.2.2⟩
    have step : scanArg (39 :: a :: w1) false false false [] =
        scanArg (a :: w1) true false false [] := by
      simp [scanArg, ISSPACE]
    rw [step, scanArg_squote_swallow (a :: w1) h2 []]
    simp
  · apply buildargv_single_scan 34 (a :: w1) (by decide) (a :: w1)
      false true false
    have h2 : ∀ c ∈ a :: w1, c ≠ 34 ∧ c ≠ 92 :=
      fun c hc => ⟨(h c hc).2.2.1, (h c hc).2.2.2⟩
    have step : scanArg (34 :: a :: w1) false false false [] =
        scanArg (a :: w1) false true false [] := by
      simp [scanArg, ISSPACE]
    rw [step, scanArg_dquote_swallow (a :: w1) h2 []]
    simp

/-- Witness for C8 at the one-byte word a (97). -/
theorem buildargv_tolerates_malformed_witness :
    (([97] : List Nat) ≠ [] ∧
      (∀ c ∈ [97], ISSPACE c = false ∧ c ≠ 39 ∧ c ≠ 34 ∧ c ≠ 92)) ∧
      ((∀ (s d b : Bool) (arg : List Nat),
          scanArg [] s d b arg = ⟨arg, [], s, d, b⟩) ∧
        buildargv ([97] ++ [39]) = [[97]] ∧
        buildargv ([97] ++ [34]) = [[97]] ∧
        buildargv ([97] ++ [92]) = [[97]] ∧
        buildargv (39 :: [97]) = [[97]] ∧
        buildargv (34 :: [97]) = [[97]] ∧
        buildargv [92] = [[]]) :=
  ⟨⟨by decide, by decide⟩,
    buildargv_tolerates_malformed [97] (by decide) (by decide)⟩

-- ----------------------------------------------------------------------
-- Claim C9: the two quote modes are mutually exclusive.
-- ----------------------------------------------------------------------

theorem scanArg_quote_invariant (data : List Nat) :
    ∀ (s d b : Bool) (arg : List Nat), (s && d) = false →
      ((scanArg data s d b arg).squote &&
        (scanArg data s d b arg).dquote) = false := by
  induction data with
  | nil => intro s d b arg h; simpa [scanArg] using h
  | cons c cs ih =>
    intro s d b arg h
    cases s <;> cases d
    · simp only [scanArg, Bool.false_eq_true, Bool.true_eq_false,
        eq_self_iff_true, if_true, if_false]
      repeat' split
      all_goals first
        | exact ih _ _ _ _ rfl
        | rfl
    · simp only [scanArg, Bool.false_eq_true, Bool.true_eq_false,
        eq_self_iff_true, if_true, if_false]
      repeat' split
      all_goals first
        | exact ih _ _ _ _ rfl
        | rfl
    · simp only [scanArg, Bool.false_eq_true, Bool.true_eq_false,
        eq_self_iff_true, if_true, if_false]
      repeat' split
      all_goals first
        | exact ih _ _ _ _ rfl
        | rfl
    · simp at h

/-- C9: at every point of a `buildargv` scan, the single-quote and
double-quote state flags are never simultaneously true.  Every intermediate
state of the scan is the entry state of `scanArg` on a suffix of the buffer,
and `buildargv` starts the scan with both flags false, so the statement is
quantified over all suffixes, states and accumulators satisfying the
invariant at entry. -/
theorem buildargv_quote_modes_exclusive (data : List Nat) (s d b : Bool)
    (arg : List Nat) (h : ¬(s = true ∧ d = true)) :
    ¬((scanArg data s d b arg).squote = true ∧
      (scanArg data s d b arg).dquote = true) := by
  have h2 : (s && d) = false := by
    cases s <;> cases d <;> simp_all
  have h3 := scanArg_quote_invariant data s d b arg h2
  intro hc
  rw [hc.1, hc.2] at h3
  simp at h3

/-- Witness for C9 on the buffer quote-a, from the initial all-false state. -/
theorem buildargv_quote_modes_exclusive_witness :
    ¬(false = true ∧ false = true) ∧
      ¬((scanArg [39, 97] false false false []).squote = true ∧
        (scanArg [39, 97] false false false []).dquote = true) :=
  ⟨by decide,
    buildargv_quote_modes_exclusive [39, 97] false false false [] (by decide)⟩

-- ----------------------------------------------------------------------
-- Claim C10: non-whitespace input yields at least one argument; arguments
-- may be empty strings.
-- ----------------------------------------------------------------------

theorem consume_whitespace_eq_nil {data : List Nat}
    (h : consume_whitespace data = []) : ∀ c ∈ data, ISSPACE c = true := by
  induction data with
  | nil => intro c hc; simp at hc
  | cons a rest ih =>
    by_cases ha : ISSPACE a
    · intro c hc
      rcases List.mem_cons.mp hc with rfl | hc2
      · exact ha
      · exact ih (by simpa [consume_whitespace, ha] using h) c hc2
    · simp [consume_whitespace, ha] at h

/-- C10: every buffer containing a non-whitespace byte yields at least one
argument, and a returned argument may be empty: two single quotes (39 39)
yield exactly one empty argument, as does a lone backslash (92), even though
empty and all-whitespace buffers yield the empty sequence. -/
theorem buildargv_nonempty_output (data : List Nat)
    (h : ∃ c ∈ data, ISSPACE c = false) :
    buildargv data ≠ [] ∧ buildargv [39, 39] = [[]] ∧
      buildargv [92] = [[]] ∧ buildargv [] = [] ∧
      buildargv [32, 9, 13] = [] := by
  refine ⟨?_, by decide, by decide, by decide, by decide⟩
  obtain ⟨c, hc, hcf⟩ := h
  unfold buildargv
  cases hcw : consume_whitespace data with
  | nil =>
    exfalso
    rw [consume_whitespace_eq_nil hcw c hc] at hcf
    cases hcf
  | cons a cs => simp [argloopF]

/-- Witness for C10 at the one-byte buffer a (97). -/
theorem buildargv_nonempty_output_witness :
    (∃ c ∈ [97], ISSPACE c = false) ∧
      (buildargv [97] ≠ [] ∧ buildargv [39, 39] = [[]] ∧
        buildargv [92] = [[]] ∧ buildargv [] = [] ∧
        buildargv [32, 9, 13] = []) :=
  ⟨by decide, buildargv_nonempty_output [97] (by decide)⟩

/-- C2: in the expansion loop, a missing response file is non-fatal: the
diagnostic is logged, the literal at-token is preserved unchanged and
processing continues; whereas an open failure other than not-exist (which
surfaces as the invalid-argument read failure on the nil handle), a read
failure, and a close failure each stop the process fatally with a message
naming the offending file and the underlying error. -/
theorem flagparse_error_handling (fs : List Nat → OpenOutcome)
    (path e contents : List Nat) (ce : Option (List Nat))
    (rest args logs : List (List Nat)) :
    (fs path = .notExist → expandArgs fs rest = .ok args logs →
      expandArgs fs ((64 :: path) :: rest) =
        .ok ((64 :: path) :: args) (path :: logs)) ∧
    (fs path = .openOther e →
      expandArgs fs ((64 :: path) :: rest) =
        .fatal (.readFail path errInvalid)) ∧
    (fs path = .opened contents (some e) ce →
      expandArgs fs ((64 :: path) :: rest) = .fatal (.readFail path e)) ∧
    (fs path = .opened contents none (some e) →
      expandArgs fs ((64 :: path) :: rest) = .fatal (.closeFail path e)) := by
  refine ⟨?_, ?_, ?_, ?_⟩ <;> intro hfs
  · intro hrest
    simp [expandArgs, startsWithAt, hfs, consArg, consLog, hrest]
  · simp [expandArgs, startsWithAt, hfs]
  · simp [expandArgs, startsWithAt, hfs]
  · simp [expandArgs, startsWithAt, hfs]

/-- Witness for C2: a file system where the path r (114) does not exist, and
one where opening it fails with a non-not-exist error. -/
theorem flagparse_error_handling_witness :
    ((fun _ : List Nat => OpenOutcome.notExist) [114] = .notExist ∧
      expandArgs (fun _ => OpenOutcome.notExist) [] = .ok [] [] ∧
      expandArgs (fun _ => OpenOutcome.notExist) [[64, 114]] =
        .ok [[64, 114]] [[114]]) ∧
    ((fun _ : List Nat => OpenOutcome.openOther [1]) [114] =
        .openOther [1] ∧
      expandArgs (fun _ => OpenOutcome.openOther [1]) [[64, 114]] =
        .fatal (.readFail [114] errInvalid)) :=
  ⟨⟨rfl, rfl,
      (flagparse_error_handling (fun _ => OpenOutcome.notExist)
        [114] [] [] none [] [] []).1 rfl rfl⟩,
    ⟨rfl,
      (flagparse_error_handling (fun _ => OpenOutcome.openOther [1])
        [114] [1] [] none [] [] []).2.1 rfl⟩⟩

/-- C3: the expansion preserves argument order: any argument not beginning
with the at-sign passes through unchanged; an at-argument whose file opens
successfully is replaced in place by the `buildargv` tokens of the entire
file contents, in order, independently of the file system (so spliced tokens
are not re-scanned for at-prefixes); expanding prog, at-resp with resp
containing "-x -y=1" yields prog, -x, -y=1, and with resp containing the
token at-inner the literal at-inner is kept even though file inner exists. -/
theorem flagparse_expansion_order (fs : List Nat → OpenOutcome)
    (a path contents : List Nat) (rest args logs : List (List Nat)) :
    (startsWithAt a = false → expandArgs fs rest = .ok args logs →
      expandArgs fs (a :: rest) = .ok (a :: args) logs) ∧
    (fs path = .opened contents none none →
      expandArgs fs rest = .ok args logs →
      expandArgs fs ((64 :: path) :: rest) =
        .ok (buildargv contents ++ args) logs) ∧
    expandArgs fsResp [strProg, 64 :: strResp] =
      .ok [strProg, strDashX, strDashY] [] ∧
    expandArgs fsNested [64 :: strResp] = .ok [64 :: strInner] [] := by
  refine ⟨?_, ?_, by decide, by decide⟩
  · intro ha hrest
    simp [expandArgs, ha, consArg, hrest]
  · intro hfs hrest
    simp [expandArgs, startsWithAt, hfs, consSpliced, hrest]

/-- Witness for C3: pass-through of the non-at argument prog under the
file system fsResp, and in-place splicing for file resp. -/
theorem flagparse_expansion_order_witness :
    (startsWithAt strProg = false ∧
      expandArgs fsResp [] = .ok [] [] ∧
      expandArgs fsResp [strProg] = .ok [strProg] []) ∧
    (fsResp strResp = .opened strRespContents none none ∧
      expandArgs fsResp ((64 :: strResp) :: []) =
        .ok (buildargv strRespContents ++ []) []) :=
  ⟨⟨by decide, by decide,
      (flagparse_expansion_order fsResp strProg [] [] [] [] []).1
        (by decide) (by decide)⟩,
    ⟨by decide,
      (flagparse_expansion_order fsResp strProg strResp strRespContents
        [] [] []).2.1 (by decide) (by decide)⟩⟩

theorem wrap64_eq_self {v : Int} (h1 : -(2 ^ 63) ≤ v) (h2 : v < 2 ^ 63) :
    wrap64 v = v := by
  have e63 : (2 : Int) ^ 63 = 9223372036854775808 := by norm_num
  have e64 : (2 : Int) ^ 64 = 18446744073709551616 := by norm_num
  unfold wrap64
  rw [e63] at h1 h2 ⊢
  rw [e64]
  rw [Int.emod_eq_of_lt (by omega) (by omega)]
  omega

/-- Counterexample for C6 as stated: at the maximum 64-bit count 2^63 - 1
(a reachable cell state, since `atoi` accepts its decimal literal), Set true
wraps the cell to -2^63 instead of incrementing it by one. -/
theorem count_set_increment_wraps :
    countSet (2 ^ 63 - 1) strTrue = (-(2 ^ 63), none) ∧
      ((-(2 ^ 63) : Int) ≠ (2 ^ 63 - 1) + 1) ∧
      atoi strMaxInt = some (2 ^ 63 - 1) :=
  ⟨by decide, by decide, by decide⟩

/-- C6 (amended): Set true increments the stored count by one with 64-bit
two's-complement wraparound, so below the maximum count the result is
exactly the count plus one; Set false resets the count to zero; any other
string is parsed as a base-10 integer which on success replaces the count;
on parse failure Set returns an error identifying the invalid input and
leaves the count unchanged; concretely from 0: three Set true yield 3, then
Set false yields 0, Set "7" yields 7, Set "abc" errors keeping 7. -/
theorem count_set_behaviour_wrap (c n : Int) (s : List Nat) :
    countSet c strTrue = (wrap64 (c + 1), none) ∧
    (-(2 ^ 63) ≤ c → c < 2 ^ 63 - 1 → countSet c strTrue = (c + 1, none)) ∧
    countSet c strFalse = (0, none) ∧
    (s ≠ strTrue → s ≠ strFalse → atoi s = some n →
      countSet c s = (n, none)) ∧
    (s ≠ strTrue → s ≠ strFalse → atoi s = none →
      countSet c s = (c, some s)) ∧
    (countSet 0 strTrue = (1, none) ∧ countSet 1 strTrue = (2, none) ∧
      countSet 2 strTrue = (3, none) ∧ countSet 3 strFalse = (0, none) ∧
      countSet 0 [55] = (7, none) ∧
      countSet 7 [97, 98, 99] = (7, some [97, 98, 99])) := by
  refine ⟨?_, ?_, ?_, ?_, ?_, by decide, by decide, by decide, by decide,
    by decide, by decide⟩
  · simp [countSet]
  · intro h1 h2
    have hw : wrap64 (c + 1) = c + 1 :=
      wrap64_eq_self (by linarith) (by linarith)
    simp [countSet, hw]
  · simp [countSet, strTrue, strFalse]
  · intro h1 h2 h3
    simp [countSet, h1, h2, h3]
  · intro h1 h2 h3
    simp [countSet, h1, h2, h3]

/-- Witness for C6: below the maximum, Set true on a stored 9 yields 10, and
Set "5" replaces a stored 9 by 5. -/
theorem count_set_behaviour_wrap_witness :
    (-(2 ^ 63) ≤ (9 : Int) ∧ (9 : Int) < 2 ^ 63 - 1 ∧
      ([53] : List Nat) ≠ strTrue ∧ ([53] : List Nat) ≠ strFalse ∧
      atoi [53] = some 5) ∧
      (countSet 9 strTrue = (10, none) ∧ countSet 9 [53] = (5, none)) :=
  ⟨⟨by decide, by decide, by decide, by decide, by decide⟩,
    ⟨(count_set_behaviour_wrap 9 5 [53]).2.1 (by decide) (by decide),
      (count_set_behaviour_wrap 9 5 [53]).2.2.2.1 (by decide) (by decide)
        (by decide)⟩⟩

theorem takeWhile_append_all {p : Nat → Bool} (w x : List Nat)
    (h : ∀ c ∈ w, p c = true) :
    (w ++ x).takeWhile p = w ++ x.takeWhile p := by
  induction w with
  | nil => simp
  | cons a rest ih =>
    have ha := h a (List.mem_cons_self a rest)
    simp only [List.cons_append, List.takeWhile_cons, ha, if_true]
    rw [ih fun c hc => h c (List.mem_cons_of_mem a hc)]

theorem afterLastByte_append (sep : Nat) (x w : List Nat)
    (h : ∀ c ∈ w, (c != sep) = true) :
    afterLastByte sep (x ++ w) = afterLastByte sep x ++ w := by
  unfold afterLastByte
  rw [List.reverse_append,
    takeWhile_append_all w.reverse x.reverse
      (fun c hc => h c (List.mem_reverse.mp hc)),
    List.reverse_append, List.reverse_reverse]

theorem afterLastByte_sep_end (sep : Nat) (x : List Nat) :
    afterLastByte sep (x ++ [sep]) = [] := by
  unfold afterLastByte
  simp [List.takeWhile_cons]

theorem progBaseName_strip (d w : List Nat)
    (h : ∀ c ∈ w, c ≠ 47 ∧ c ≠ 92) :
    progBaseName (d ++ 47 :: w) = trimSuffix strExe w ∧
    progBaseName (d ++ 92 :: w) = trimSuffix strExe w := by
  have h47 : ∀ c ∈ w, (c != 47) = true := fun c hc => by simp [(h c hc).1]
  have h92 : ∀ c ∈ w, (c != 92) = true := fun c hc => by simp [(h c hc).2]
  constructor
  · unfold progBaseName
    have e1 : afterLastByte 47 (d ++ 47 :: w) = w := by
      have hsplit : d ++ 47 :: w = (d ++ [47]) ++ w := by simp
      rw [hsplit, afterLastByte_append 47 (d ++ [47]) w h47,
        afterLastByte_sep_end]
      simp
    have e2 : afterLastByte 92 w = w := by
      have hw : w = [] ++ w := rfl
      rw [hw, afterLastByte_append 92 [] w h92]
      rfl
    rw [e1, e2]
  · unfold progBaseName
    have e1 : afterLastByte 47 (d ++ 92 :: w) =
        afterLastByte 47 d ++ 92 :: w := by
      apply afterLastByte_append 47 d (92 :: w)
      intro c hc
      rcases List.mem_cons.mp hc with rfl | hc2
      · decide
      · exact h47 c hc2
    have e2 : afterLastByte 92 (afterLastByte 47 d ++ 92 :: w) = w := by
      have hsplit : afterLastByte 47 d ++ 92 :: w =
          (afterLastByte 47 d ++ [92]) ++ w := by simp
      rw [hsplit, afterLastByte_append 92 (afterLastByte 47 d ++ [92]) w h92,
        afterLastByte_sep_end]
      rfl
    rw [e1, e2]

/-- C7: versionFlag.Set computes the program base name by stripping
everything up to and including the last forward slash (47) and the last
backslash (92) and removing a trailing ".exe"; it appends the
build-identifier suffix to the version line exactly when the supplied value
is "full" and the release version begins with "devel"; for program path
/usr/local/bin/tool.exe with a devel release and value "full" the report
names tool and includes the build identifier; the experiment descriptor is
omitted exactly when it equals the default baseline string (a nonempty
differing descriptor is printed after a space). -/
theorem version_flag_set
    (d w progPath ver bid expStr defaultExp value : List Nat) :
    ((∀ c ∈ w, c ≠ 47 ∧ c ≠ 92) →
      progBaseName (d ++ 47 :: w) = trimSuffix strExe w ∧
      progBaseName (d ++ 92 :: w) = trimSuffix strExe w) ∧
    progBaseName strToolPath = strTool ∧
    (expStr = defaultExp →
      versionSet progPath ver bid expStr defaultExp value =
        progBaseName progPath ++ strVersionOf ++ ver ++
          (if value = strFull ∧ strDevel.isPrefixOf ver then
            strBuildEq ++ bid else []) ++ [10]) ∧
    (expStr ≠ defaultExp → expStr ≠ [] →
      versionSet progPath ver bid expStr defaultExp value =
        progBaseName progPath ++ strVersionOf ++ ver ++ [32] ++ expStr ++
          (if value = strFull ∧ strDevel.isPrefixOf ver then
            strBuildEq ++ bid else []) ++ [10]) ∧
    versionSet strToolPath strDevel bid expStr expStr strFull =
      strTool ++ strVersionOf ++ strDevel ++ strBuildEq ++ bid ++ [10] := by
  refine ⟨fun h => progBaseName_strip d w h, by decide, ?_, ?_, ?_⟩
  · intro he
    subst he
    by_cases hc : (value = strFull ∧ strDevel.isPrefixOf ver = true)
    · simp [versionSet, hc]
    · simp [versionSet, hc]
  · intro hne hnil
    by_cases hc : (value = strFull ∧ strDevel <+: ver)
    · simp [versionSet, hne, hnil, hc]
    · simp [versionSet, hne, hnil, hc]
  · have hbase : progBaseName strToolPath = strTool := by decide
    have hpre : strDevel.isPrefixOf strDevel = true := by decide
    simp [versionSet, hbase, hpre]

/-- Witness for C7: the base-name computation at directory slash-u (47 117)
and file name tool, and the report for a nonempty non-default experiment
descriptor x (120). -/
theorem version_flag_set_witness :
    ((∀ c ∈ strTool, c ≠ 47 ∧ c ≠ 92) ∧
      (progBaseName ([47, 117] ++ 47 :: strTool) = trimSuffix strExe strTool ∧
        progBaseName ([47, 117] ++ 92 :: strTool) =
          trimSuffix strExe strTool)) ∧
    (([120] : List Nat) ≠ [] ∧
      versionSet strToolPath strDevel [66] [120] [] strFull =
        progBaseName strToolPath ++ strVersionOf ++ strDevel ++ [32] ++
          [120] ++
          (if ([102, 117, 108, 108] : List Nat) = strFull ∧
            strDevel.isPrefixOf strDevel then strBuildEq ++ [66] else []) ++
          [10]) :=
  ⟨⟨by decide,
      (version_flag_set [47, 117] strTool [] [] [] [] [] []).1 (by decide)⟩,
    ⟨by decide,
      (version_flag_set [47, 117] strTool strToolPath strDevel [66] [120]
        [] strFull).2.2.2.1 (by decide) (by decide)⟩⟩

-- ----------------------------------------------------------------------
-- Fuel adequacy: the fuel parameter of the outer loop never runs out, so
-- buildargv computes the source's unbounded loop.
-- ----------------------------------------------------------------------

theorem scanArg_rest_length (data : List Nat) :
    ∀ (s d b : Bool) (arg : List Nat),
      (scanArg data s d b arg).rest.length ≤ data.length := by
  induction data with
  | nil => intro s d b arg; simp [scanArg]
  | cons c cs ih =>
    intro s d b arg
    simp only [scanArg]
    repeat' split
    all_goals first
      | exact Nat.le_succ_of_le (ih _ _ _ _)
      | simp

theorem scanArg_progress (c : Nat) (cs : List Nat) (s d b : Bool)
    (arg : List Nat) :
    (consume_whitespace (scanArg (c :: cs) s d b arg).rest).length ≤
      cs.length := by
  simp only [scanArg]
  split
  · rename_i hcond
    have hsp : ISSPACE c = true := by
      simp only [Bool.and_eq_true] at hcond
      exact hcond.1.1.1
    simp only [consume_whitespace, hsp, if_true]
    exact consume_whitespace_length cs
  · repeat' split
    all_goals
      exact le_trans (consume_whitespace_length _) (scanArg_rest_length cs _ _ _ _)

theorem argloopF_fuel :
    ∀ (n m : Nat) (data : List Nat) (s d b : Bool),
      data.length < n → data.length < m →
      argloopF n data s d b = argloopF m data s d b := by
  intro n
  induction n with
  | zero => intro m data s d b h1 _; omega
  | succ n ih =>
    intro m data s d b h1 h2
    cases m with
    | zero => omega
    | succ m =>
      cases data with
      | nil => rfl
      | cons c cs =>
        simp only [argloopF]
        refine congrArg _ ?_
        apply ih
        · have hp := scanArg_progress c cs s d b []
          simp only [List.length_cons] at h1
          omega
        · have hp := scanArg_progress c cs s d b []
          simp only [List.length_cons] at h2
          omega
